import Mathlib

/-!
Shallow embedding of the card scheduler, selector, distractor builder and
progression controller of the Magical Sounds reading-practice game
(src/scripts/main.js), together with theorems settling the specification
claims about them.

Modelling conventions:
* JavaScript numbers on the integer-valued quantities (boxes, counters,
  question indices, scores) are embedded as `Nat`/`Int`; the only
  fractional computation (the scoring multiplier) is embedded in `ℚ` with
  Mathlib's `round` (round half up, as `Math.round` on the values reached
  here).
* `Math.random()`-driven draws are embedded as explicit random inputs:
  `rnd a b r` consumes an arbitrary `r : Nat` and lands exactly on the
  inclusive range `[a, b]`, matching `Math.floor(Math.random()*(b-a+1))+a`.
  Loops that draw repeatedly consume a stream `rng : Nat → Nat` at an
  advancing position `k`.
* JavaScript's stable `Array.prototype.sort` is embedded as a stable
  insertion sort with the same boolean comparator (stable sorting by a
  total preorder determines the output list uniquely).
* The `while` backfill loop of `buildOptions`, which can in principle spin
  forever on an adversarial random stream, is embedded with explicit fuel
  and an `Option` result; all other loops terminate structurally.
-/

namespace MagicalSounds

/-- A catalog entry: grapheme `g` and its phoneme family `fam`. -/
structure Sound where
  g : String
  fam : String
deriving DecidableEq, Repr

/-- The full ordered catalog `SOUNDS_ORDERED` from the source. -/
def SOUNDS_ORDERED : List Sound :=
  [⟨"ch", "ch"⟩, ⟨"ou", "ou"⟩, ⟨"on", "on"⟩, ⟨"fr", "fr"⟩, ⟨"cl", "cl"⟩,
   ⟨"in", "in"⟩, ⟨"oi", "oi"⟩, ⟨"ai", "ai"⟩, ⟨"ei", "ai"⟩, ⟨"an", "an"⟩,
   ⟨"en", "an"⟩, ⟨"ph", "ph"⟩, ⟨"au", "au"⟩, ⟨"eu", "eu"⟩, ⟨"gn", "gn"⟩,
   ⟨"er", "et"⟩, ⟨"un", "un"⟩, ⟨"ill", "ill"⟩, ⟨"ien", "ien"⟩,
   ⟨"ain", "in"⟩, ⟨"et", "et"⟩, ⟨"ein", "in"⟩, ⟨"am", "an"⟩, ⟨"em", "an"⟩,
   ⟨"ez", "et"⟩, ⟨"um", "un"⟩, ⟨"eau", "au"⟩, ⟨"œu", "eu"⟩]

/-- Per-card statistics `{ asked, correct }`. -/
structure Stats where
  asked : Nat
  correct : Nat
deriving DecidableEq, Repr

/-- A deck card: grapheme, family, Leitner box, due index and stats. -/
structure Card where
  g : String
  fam : String
  box : Nat
  dueAt : Nat
  stats : Stats
deriving DecidableEq, Repr

/-- `makeCard` from the source: a fresh card in box 1, due immediately. -/
def makeCard (s : Sound) : Card :=
  { g := s.g, fam := s.fam, box := 1, dueAt := 0, stats := ⟨0, 0⟩ }

/-- The in-memory game state (the scheduler-relevant fields of `state`).
The current card is identified by its index into `deck`, since in the
source `state.current` aliases a deck element. -/
structure GState where
  activeCount : Nat
  correctSinceUnlock : Nat
  deck : List Card
  questionIndex : Nat
  lastTargetG : Option String
  score : Int
  asked : Nat
  right : Nat
  streak : Nat
  castleStage : Nat
deriving DecidableEq, Repr

/-- `rnd(a,b)` from the source: a uniform draw in the inclusive range
`[a,b]`, embedded by consuming an arbitrary random input `r`. -/
def rnd (a b r : Nat) : Nat := a + r % (b - a + 1)

/-- `BOX_INTERVALS[box] || [3,6]` from the source: the Leitner interval
table with its fallback. -/
def BOX_INTERVALS (box : Nat) : Nat × Nat :=
  match box with
  | 1 => (1, 2)
  | 2 => (3, 5)
  | 3 => (7, 12)
  | 4 => (15, 24)
  | 5 => (28, 40)
  | _ => (3, 6)

/-- `schedule(card)` from the source: set `dueAt` to the current question
index plus a random offset drawn from the box's interval. -/
def schedule (qi r : Nat) (c : Card) : Card :=
  let mm := BOX_INTERVALS c.box
  { c with dueAt := qi + rnd mm.1 mm.2 r }

/-- `initDeck()` from the source: deck = first `activeCount` catalog
entries as fresh cards; session counters reset. -/
def initDeck (s : GState) : GState :=
  { s with
    deck := (SOUNDS_ORDERED.take s.activeCount).map makeCard
    correctSinceUnlock := 0
    questionIndex := 0
    lastTargetG := none
    score := 0
    asked := 0
    right := 0
    streak := 0
    castleStage := 0 }

/-- `unlockNext()` from the source: append the next catalog entry as a
fresh card if the catalog is not exhausted; returns the success flag. -/
def unlockNext (s : GState) : Bool × GState :=
  if h : s.activeCount < SOUNDS_ORDERED.length then
    (true,
     { s with
       deck := s.deck ++ [makeCard (SOUNDS_ORDERED.get ⟨s.activeCount, h⟩)]
       activeCount := s.activeCount + 1
       correctSinceUnlock := 0 })
  else
    (false, s)

/-! ### Stable sort (embedding of JavaScript's stable Array.sort) -/

/-- Stable insertion of `x` into a sorted list: `x` goes before the first
element `d` with `le x d` (so an element inserted from further left in the
original list stays before elements it ties with). -/
def sInsert (le : α → α → Bool) (x : α) : List α → List α
  | [] => [x]
  | d :: ds => if le x d then x :: d :: ds else d :: sInsert le x ds

/-- Stable insertion sort by the boolean comparator `le`. -/
def sortBy (le : α → α → Bool) : List α → List α
  | [] => []
  | x :: xs => sInsert le x (sortBy le xs)

/-- The due-branch comparator of `pickNextCard`:
`a.box - b.box || a.dueAt - b.dueAt` is nonpositive. -/
def dueLe (a b : Card) : Bool :=
  decide (a.box < b.box ∨ (a.box = b.box ∧ a.dueAt ≤ b.dueAt))

/-- The none-due-branch comparator of `pickNextCard`:
`(a.dueAt - b.dueAt) || (a.box - b.box)` is nonpositive. -/
def soonLe (a b : Card) : Bool :=
  decide (a.dueAt < b.dueAt ∨ (a.dueAt = b.dueAt ∧ a.box ≤ b.box))

/-- `choices[0] || fallback[0]` from the source (undefined = `none`). -/
def firstPick (choices fallback : List Card) : Option Card :=
  match choices with
  | c :: _ => some c
  | [] => fallback.head?

/-- The due sublist `deck.filter(c => c.dueAt <= questionIndex)`. -/
def dueOf (s : GState) : List Card :=
  s.deck.filter (fun c => c.dueAt ≤ s.questionIndex)

/-- `pickNextCard()` from the source. -/
def pickNextCard (s : GState) : Option Card :=
  let due := dueOf s
  if due.isEmpty then
    let soonest := sortBy soonLe s.deck
    let choices := soonest.filter (fun c => some c.g ≠ s.lastTargetG)
    firstPick choices soonest
  else
    let sorted := sortBy dueLe due
    let choices := sorted.filter (fun c => some c.g ≠ s.lastTargetG)
    firstPick choices sorted

/-! ### Answer handling -/

/-- In-place mutation of the card at index `i` (aliased `state.current`). -/
def modifyAt (l : List Card) (i : Nat) (f : Card → Card) : List Card :=
  match l[i]? with
  | some a => l.set i (f a)
  | none => l

/-- `Math.max(0, Math.min(1, q))`, the clamp applied to `timeFrac`. -/
def clamp01 (q : ℚ) : ℚ := max 0 (min 1 q)

/-- The streak multiplier `1 + Math.min(0.30, streak * 0.05)`. -/
def streakMult (streak : Nat) : ℚ := 1 + min (3 / 10) ((streak : ℚ) * (5 / 100))

/-- `state.current.stats.asked++`. -/
def askedBump (c : Card) : Card :=
  { c with stats := { c.stats with asked := c.stats.asked + 1 } }

/-- `state.current.stats.correct++`. -/
def correctBump (c : Card) : Card :=
  { c with stats := { c.stats with correct := c.stats.correct + 1 } }

/-- `state.current.box = Math.min(5, box + 1); schedule(state.current)`. -/
def promote (qi r : Nat) (c : Card) : Card :=
  schedule qi r { c with box := min 5 (c.box + 1) }

/-- `state.current.box = 1; schedule(state.current)`. -/
def demote (qi r : Nat) (c : Card) : Card :=
  schedule qi r { c with box := 1 }

/-- The correct branch of `onAnswerClick`, acting on the card at index
`i`, with remaining-time fraction `tf` and schedule randomness `r`. -/
def onAnswerCorrect (s : GState) (i : Nat) (tf : ℚ) (r : Nat) : GState :=
  let speedBonus : Int := round (100 * clamp01 tf)
  let s1 := { s with deck := modifyAt s.deck i askedBump, asked := s.asked + 1 }
  let s2 := { s1 with
    deck := modifyAt s1.deck i correctBump
    right := s1.right + 1
    streak := s1.streak + 1 }
  let s3 := { s2 with deck := modifyAt s2.deck i (promote s2.questionIndex r) }
  let gained : Int := round ((100 + (speedBonus : ℚ)) * streakMult s3.streak)
  let s4 := { s3 with score := s3.score + gained }
  let s5 := { s4 with correctSinceUnlock := s4.correctSinceUnlock + 1 }
  let s6 := if 5 ≤ s5.correctSinceUnlock then (unlockNext s5).2 else s5
  { s6 with castleStage := min 8 (s6.castleStage + 1) }

/-- The wrong branch of `onAnswerClick`. -/
def onAnswerWrong (s : GState) (i : Nat) (r : Nat) : GState :=
  let s1 := { s with deck := modifyAt s.deck i askedBump, asked := s.asked + 1 }
  let s2 := { s1 with streak := 0 }
  let s3 := { s2 with deck := modifyAt s2.deck i (demote s2.questionIndex r) }
  let s4 := { s3 with score := max 0 (s3.score - 20) }
  { s4 with castleStage := s4.castleStage - 1 }

/-- `onAnswerClick` from the source, dispatching on whether the chosen
grapheme matches the current card's. -/
def onAnswerClick (s : GState) (i : Nat) (chosen : String) (tf : ℚ) (r : Nat) :
    GState :=
  match s.deck[i]? with
  | none => s
  | some cur => if chosen = cur.g then onAnswerCorrect s i tf r
                else onAnswerWrong s i r

/-- `timesUp()` from the source: demote the current card, reschedule,
reset the streak and bump the global asked counter. -/
def timesUp (s : GState) (i : Nat) (r : Nat) : GState :=
  let s1 := { s with deck := modifyAt s.deck i (demote s.questionIndex r) }
  { s1 with streak := 0, asked := s1.asked + 1 }

/-! ### Lemmas about the stable sort -/

theorem sInsert_perm (le : α → α → Bool) (x : α) (l : List α) :
    List.Perm (sInsert le x l) (x :: l) := by
  induction l with
  | nil => exact List.Perm.refl _
  | cons d ds ih =>
    simp only [sInsert]
    by_cases hxd : le x d = true
    · rw [if_pos hxd]
    · rw [if_neg hxd]
      exact (ih.cons d).trans (List.Perm.swap x d ds)

theorem sortBy_perm (le : α → α → Bool) (l : List α) :
    List.Perm (sortBy le l) l := by
  induction l with
  | nil => exact List.Perm.refl _
  | cons x xs ih => exact (sInsert_perm le x _).trans (ih.cons x)

theorem sInsert_pairwise (le : α → α → Bool)
    (htot : ∀ a b, le a b = true ∨ le b a = true)
    (htrans : ∀ a b c, le a b = true → le b c = true → le a c = true)
    (x : α) (l : List α) (h : l.Pairwise fun a b => le a b = true) :
    (sInsert le x l).Pairwise fun a b => le a b = true := by
  induction l with
  | nil => simp [sInsert]
  | cons d ds ih =>
    rcases List.pairwise_cons.1 h with ⟨hd, hds⟩
    simp only [sInsert]
    by_cases hxd : le x d = true
    · rw [if_pos hxd]
      refine List.pairwise_cons.2 ⟨?_, h⟩
      intro y hy
      rcases List.mem_cons.1 hy with rfl | hym
      · exact hxd
      · exact htrans x d y hxd (hd y hym)
    · rw [if_neg hxd]
      refine List.pairwise_cons.2 ⟨?_, ih hds⟩
      intro y hy
      have hy' : y ∈ x :: ds := (sInsert_perm le x ds).mem_iff.1 hy
      rcases List.mem_cons.1 hy' with rfl | hym
      · rcases htot y d with h' | h'
        · exact absurd h' hxd
        · exact h'
      · exact hd y hym

theorem sortBy_pairwise (le : α → α → Bool)
    (htot : ∀ a b, le a b = true ∨ le b a = true)
    (htrans : ∀ a b c, le a b = true → le b c = true → le a c = true)
    (l : List α) : (sortBy le l).Pairwise fun a b => le a b = true := by
  induction l with
  | nil => simp [sortBy]
  | cons x xs ih => exact sInsert_pairwise le htot htrans x _ ih

theorem pairwise_head_min {le : α → α → Bool}
    (htot : ∀ a b, le a b = true ∨ le b a = true)
    {l : List α} {c : α} (h : l.Pairwise fun a b => le a b = true)
    (hc : l.head? = some c) : ∀ d ∈ l, le c d = true := by
  cases l with
  | nil => simp at hc
  | cons x xs =>
    obtain rfl : x = c := by simpa using hc
    intro d hd
    rcases List.mem_cons.1 hd with rfl | hdm
    · rcases htot d d with h' | h' <;> exact h'
    · exact (List.pairwise_cons.1 h).1 d hdm

theorem dueLe_total (a b : Card) : dueLe a b = true ∨ dueLe b a = true := by
  simp only [dueLe, decide_eq_true_eq]
  omega

theorem dueLe_trans (a b c : Card) (h1 : dueLe a b = true)
    (h2 : dueLe b c = true) : dueLe a c = true := by
  simp only [dueLe, decide_eq_true_eq] at *
  omega

theorem soonLe_total (a b : Card) : soonLe a b = true ∨ soonLe b a = true := by
  simp only [soonLe, decide_eq_true_eq]
  omega

theorem soonLe_trans (a b c : Card) (h1 : soonLe a b = true)
    (h2 : soonLe b c = true) : soonLe a c = true := by
  simp only [soonLe, decide_eq_true_eq] at *
  omega

/-! ### The selector's branches -/

theorem pickNextCard_eq_branch (s : GState) :
    pickNextCard s =
      if (dueOf s).isEmpty then
        firstPick
          ((sortBy soonLe s.deck).filter (fun c => some c.g ≠ s.lastTargetG))
          (sortBy soonLe s.deck)
      else
        firstPick
          ((sortBy dueLe (dueOf s)).filter (fun c => some c.g ≠ s.lastTargetG))
          (sortBy dueLe (dueOf s)) := rfl

theorem firstPick_sorted_spec (le : Card → Card → Bool)
    (htot : ∀ a b, le a b = true ∨ le b a = true)
    (htrans : ∀ a b c, le a b = true → le b c = true → le a c = true)
    (base : List Card) (p : Card → Bool) (hbase : base ≠ []) :
    ∃ c, firstPick ((sortBy le base).filter p) (sortBy le base) = some c ∧
      c ∈ base ∧
      ((∃ d ∈ base, p d = true) →
        p c = true ∧ ∀ d ∈ base, p d = true → le c d = true) ∧
      ((∀ d ∈ base, p d = false) → ∀ d ∈ base, le c d = true) := by
  have hperm := sortBy_perm le base
  have hpw := sortBy_pairwise le htot htrans base
  have hsne : sortBy le base ≠ [] := by
    intro hnil
    rw [hnil] at hperm
    exact hbase hperm.symm.eq_nil
  cases hch : (sortBy le base).filter p with
  | cons c rest =>
    refine ⟨c, by simp [firstPick, hch], ?_, ?_, ?_⟩
    · have hc : c ∈ (sortBy le base).filter p := by
        rw [hch]; exact List.mem_cons_self c rest
      exact hperm.mem_iff.1 (List.mem_filter.1 hc).1
    · intro _
      have hc : c ∈ (sortBy le base).filter p := by
        rw [hch]; exact List.mem_cons_self c rest
      refine ⟨(List.mem_filter.1 hc).2, ?_⟩
      intro d hd hpd
      have hdch : d ∈ (sortBy le base).filter p :=
        List.mem_filter.2 ⟨hperm.mem_iff.2 hd, hpd⟩
      have hpwch : ((sortBy le base).filter p).Pairwise
          fun a b => le a b = true :=
        (List.Pairwise.sublist (List.filter_sublist _) hpw)
      exact pairwise_head_min htot hpwch (by rw [hch]; rfl) d hdch
    · intro hall
      have hc : c ∈ (sortBy le base).filter p := by
        rw [hch]; exact List.mem_cons_self c rest
      have hcb : c ∈ base := hperm.mem_iff.1 (List.mem_filter.1 hc).1
      have := hall c hcb
      rw [(List.mem_filter.1 hc).2] at this
      exact absurd this (by simp)
  | nil =>
    obtain ⟨c, hc⟩ : ∃ c, (sortBy le base).head? = some c := by
      cases hs : sortBy le base with
      | nil => exact absurd hs hsne
      | cons x xs => exact ⟨x, rfl⟩
    refine ⟨c, by simp [firstPick, hch, hc], ?_, ?_, ?_⟩
    · have : c ∈ sortBy le base := by
        cases hs : sortBy le base with
        | nil => exact absurd hs hsne
        | cons x xs =>
          rw [hs] at hc
          simp only [List.head?] at hc
          rw [← Option.some_inj.1 hc] at *
          exact List.mem_cons_self x xs
      exact hperm.mem_iff.1 this
    · rintro ⟨d, hd, hpd⟩
      have : d ∈ (sortBy le base).filter p :=
        List.mem_filter.2 ⟨hperm.mem_iff.2 hd, hpd⟩
      rw [hch] at this
      exact absurd this (List.not_mem_nil d)
    · intro _
      intro d hd
      exact pairwise_head_min htot hpw hc d (hperm.mem_iff.2 hd)

/-- The candidate set the selector actually filters by `lastSymbol`:
the due sublist when non-empty, the whole deck otherwise. -/
def candidateSet (s : GState) : List Card :=
  if (dueOf s).isEmpty then s.deck else dueOf s

/-- Claim C10: for every state whose deck is non-empty, `pickNextCard`
returns a card that is an element of the deck (it never returns undefined
and never indexes out of bounds), in both the due and the none-due
branches. -/
theorem pickNextCard_mem_deck (s : GState) (h : s.deck ≠ []) :
    ∃ c, pickNextCard s = some c ∧ c ∈ s.deck := by
  rw [pickNextCard_eq_branch]
  by_cases hdue : (dueOf s).isEmpty
  · rw [if_pos hdue]
    obtain ⟨c, hpick, hmem, -, -⟩ :=
      firstPick_sorted_spec soonLe soonLe_total soonLe_trans s.deck
        (fun c => some c.g ≠ s.lastTargetG) h
    exact ⟨c, hpick, hmem⟩
  · rw [if_neg hdue]
    have hne : dueOf s ≠ [] := by
      intro hnil
      rw [hnil] at hdue
      exact hdue rfl
    obtain ⟨c, hpick, hmem, -, -⟩ :=
      firstPick_sorted_spec dueLe dueLe_total dueLe_trans (dueOf s)
        (fun c => some c.g ≠ s.lastTargetG) hne
    exact ⟨c, hpick, List.mem_of_mem_filter hmem⟩

/-- Witness for C10 at a concrete two-card state. -/
def wState10 : GState :=
  ⟨2, 0, [⟨"ch", "ch", 1, 0, ⟨0, 0⟩⟩, ⟨"ou", "ou", 1, 0, ⟨0, 0⟩⟩],
   0, none, 0, 0, 0, 0, 0⟩

theorem pickNextCard_mem_deck_witness :
    wState10.deck ≠ [] ∧ ∃ c, pickNextCard wState10 = some c ∧ c ∈ wState10.deck :=
  ⟨by decide, pickNextCard_mem_deck wState10 (by decide)⟩

/-- Claim C4 (amended): with at least two due cards, `pickNextCard`
returns the (box asc, dueAt asc)-minimal card among the due cards whose
symbol differs from `lastSymbol` when one exists, and the minimal due card
overall when every due card carries `lastSymbol`. -/
theorem pickNextCard_due_min (s : GState) (h2 : 2 ≤ (dueOf s).length) :
    ∃ c, pickNextCard s = some c ∧ c ∈ dueOf s ∧
      ((∃ d ∈ dueOf s, some d.g ≠ s.lastTargetG) →
        (some c.g ≠ s.lastTargetG ∧
         ∀ d ∈ dueOf s, some d.g ≠ s.lastTargetG →
           c.box < d.box ∨ (c.box = d.box ∧ c.dueAt ≤ d.dueAt))) ∧
      ((∀ d ∈ dueOf s, some d.g = s.lastTargetG) →
        ∀ d ∈ dueOf s, c.box < d.box ∨ (c.box = d.box ∧ c.dueAt ≤ d.dueAt)) := by
  have hne : dueOf s ≠ [] := by
    intro hnil
    rw [hnil] at h2
    exact absurd h2 (by decide)
  have hdue : ¬ (dueOf s).isEmpty := by
    cases hd : dueOf s with
    | nil => exact absurd hd hne
    | cons x xs => simp [hd]
  rw [pickNextCard_eq_branch, if_neg hdue]
  obtain ⟨c, hpick, hmem, hsome, hnone⟩ :=
    firstPick_sorted_spec dueLe dueLe_total dueLe_trans (dueOf s)
      (fun c => some c.g ≠ s.lastTargetG) hne
  refine ⟨c, hpick, hmem, ?_, ?_⟩
  · rintro ⟨d, hd, hdg⟩
    obtain ⟨hpc, hmin⟩ := hsome ⟨d, hd, by simpa using hdg⟩
    refine ⟨by simpa using hpc, ?_⟩
    intro e he heg
    have := hmin e he (by simpa using heg)
    simpa [dueLe] using this
  · intro hall
    intro d hd
    have := hnone (fun d hd => by simpa using hall d hd) d hd
    simpa [dueLe] using this

def cexCardA4 : Card := ⟨"a", "a", 1, 5, ⟨0, 0⟩⟩

def cexCardB4 : Card := ⟨"b", "b", 2, 5, ⟨0, 0⟩⟩

def cexState4 : GState :=
  ⟨2, 0, [cexCardA4, cexCardB4], 10, some "a", 0, 0, 0, 0, 0⟩

/-- Counterexample to C4 as stated: with two due cards and
`lastSymbol = "a"`, the selector skips the minimum-box due card `"a"`
(box 1) and returns `"b"` (box 2). -/
theorem pickNextCard_due_min_cex :
    2 ≤ (dueOf cexState4).length ∧
    pickNextCard cexState4 = some cexCardB4 ∧
    cexCardA4 ∈ dueOf cexState4 ∧
    cexCardA4.box < cexCardB4.box := by decide

def wCardA4 : Card := ⟨"a", "a", 2, 6, ⟨0, 0⟩⟩

def wCardB4 : Card := ⟨"b", "b", 1, 7, ⟨0, 0⟩⟩

def wState4 : GState :=
  ⟨2, 0, [wCardA4, wCardB4], 10, none, 0, 0, 0, 0, 0⟩

theorem pickNextCard_due_min_witness :
    2 ≤ (dueOf wState4).length ∧
    (∃ c, pickNextCard wState4 = some c ∧ c ∈ dueOf wState4 ∧
      ((∃ d ∈ dueOf wState4, some d.g ≠ wState4.lastTargetG) →
        (some c.g ≠ wState4.lastTargetG ∧
         ∀ d ∈ dueOf wState4, some d.g ≠ wState4.lastTargetG →
           c.box < d.box ∨ (c.box = d.box ∧ c.dueAt ≤ d.dueAt))) ∧
      ((∀ d ∈ dueOf wState4, some d.g = wState4.lastTargetG) →
        ∀ d ∈ dueOf wState4,
          c.box < d.box ∨ (c.box = d.box ∧ c.dueAt ≤ d.dueAt))) :=
  ⟨by decide, pickNextCard_due_min wState4 (by decide)⟩

/-- Claim C5 (amended): `pickNextCard` never returns the `lastSymbol`
card when the candidate set it filters — the due sublist when non-empty,
otherwise the whole deck — contains a card with a different symbol. -/
theorem pickNextCard_avoids_last (s : GState) (c : Card)
    (hpick : pickNextCard s = some c)
    (halt : ∃ d ∈ candidateSet s, some d.g ≠ s.lastTargetG) :
    some c.g ≠ s.lastTargetG := by
  rw [pickNextCard_eq_branch] at hpick
  by_cases hdue : (dueOf s).isEmpty
  · rw [if_pos hdue] at hpick
    have hcand : candidateSet s = s.deck := by
      unfold candidateSet
      rw [if_pos hdue]
    rw [hcand] at halt
    obtain ⟨d, hd, hdg⟩ := halt
    have hne : s.deck ≠ [] := by
      intro hnil
      rw [hnil] at hd
      exact absurd hd (List.not_mem_nil d)
    obtain ⟨c', hpick', -, hsome, -⟩ :=
      firstPick_sorted_spec soonLe soonLe_total soonLe_trans s.deck
        (fun c => some c.g ≠ s.lastTargetG) hne
    obtain ⟨hpc, -⟩ := hsome ⟨d, hd, by simpa using hdg⟩
    rw [hpick'] at hpick
    rw [← Option.some_inj.1 hpick]
    simpa using hpc
  · rw [if_neg hdue] at hpick
    have hcand : candidateSet s = dueOf s := by
      unfold candidateSet
      rw [if_neg hdue]
    rw [hcand] at halt
    obtain ⟨d, hd, hdg⟩ := halt
    have hne : dueOf s ≠ [] := by
      intro hnil
      rw [hnil] at hd
      exact absurd hd (List.not_mem_nil d)
    obtain ⟨c', hpick', -, hsome, -⟩ :=
      firstPick_sorted_spec dueLe dueLe_total dueLe_trans (dueOf s)
        (fun c => some c.g ≠ s.lastTargetG) hne
    obtain ⟨hpc, -⟩ := hsome ⟨d, hd, by simpa using hdg⟩
    rw [hpick'] at hpick
    rw [← Option.some_inj.1 hpick]
    simpa using hpc

def cexCardA5 : Card := ⟨"a", "a", 1, 5, ⟨0, 0⟩⟩

def cexCardB5 : Card := ⟨"b", "b", 1, 20, ⟨0, 0⟩⟩

def cexState5 : GState :=
  ⟨2, 0, [cexCardA5, cexCardB5], 10, some "a", 0, 0, 0, 0, 0⟩

/-- Counterexample to C5 as stated: the deck contains the alternative
`"b"`, but `"b"` is not due while `"a"` is, so the selector returns the
`lastSymbol` card `"a"` anyway. -/
theorem pickNextCard_avoids_last_cex :
    pickNextCard cexState5 = some cexCardA5 ∧
    cexState5.lastTargetG = some cexCardA5.g ∧
    cexCardB5 ∈ cexState5.deck ∧
    cexCardB5.g ≠ cexCardA5.g := by decide

def wCardA5 : Card := ⟨"a", "a", 1, 5, ⟨0, 0⟩⟩

def wCardB5 : Card := ⟨"b", "b", 1, 6, ⟨0, 0⟩⟩

def wState5 : GState :=
  ⟨2, 0, [wCardA5, wCardB5], 10, some "a", 0, 0, 0, 0, 0⟩

theorem pickNextCard_avoids_last_witness :
    pickNextCard wState5 = some wCardB5 ∧
    (∃ d ∈ candidateSet wState5, some d.g ≠ wState5.lastTargetG) ∧
    some wCardB5.g ≠ wState5.lastTargetG :=
  ⟨by decide, by decide,
   pickNextCard_avoids_last wState5 wCardB5 (by decide) (by decide)⟩

/-! ### Random draws, scheduling ranges, `modifyAt` -/

theorem rnd_mem (a b r : Nat) (h : a ≤ b) : a ≤ rnd a b r ∧ rnd a b r ≤ b := by
  unfold rnd
  have : r % (b - a + 1) < b - a + 1 := Nat.mod_lt _ (by omega)
  omega

theorem rnd_attains (a b v : Nat) (h1 : a ≤ v) (h2 : v ≤ b) :
    rnd a b (v - a) = v := by
  unfold rnd
  rw [Nat.mod_eq_of_lt (by omega)]
  omega

theorem box_intervals_le (b : Nat) :
    (BOX_INTERVALS b).1 ≤ (BOX_INTERVALS b).2 := by
  rcases b with _|_|_|_|_|_|n <;> simp [BOX_INTERVALS]

theorem box_intervals_pos (b : Nat) : 1 ≤ (BOX_INTERVALS b).1 := by
  rcases b with _|_|_|_|_|_|n <;> simp [BOX_INTERVALS]

theorem box_intervals_default (b : Nat) (h1 : b ≠ 1) (h2 : b ≠ 2) (h3 : b ≠ 3)
    (h4 : b ≠ 4) (h5 : b ≠ 5) : BOX_INTERVALS b = (3, 6) := by
  rcases b with _|_|_|_|_|_|n <;> simp_all [BOX_INTERVALS]

theorem schedule_in_box_interval (qi r : Nat) (c : Card) :
    qi + (BOX_INTERVALS c.box).1 ≤ (schedule qi r c).dueAt ∧
    (schedule qi r c).dueAt ≤ qi + (BOX_INTERVALS c.box).2 := by
  have h := rnd_mem (BOX_INTERVALS c.box).1 (BOX_INTERVALS c.box).2 r
    (box_intervals_le c.box)
  unfold schedule
  dsimp only
  omega

theorem schedule_box (qi r : Nat) (c : Card) : (schedule qi r c).box = c.box :=
  rfl

theorem schedule_stats (qi r : Nat) (c : Card) :
    (schedule qi r c).stats = c.stats := rfl

theorem mem_modifyAt (l : List Card) (i : Nat) (f : Card → Card) (d : Card)
    (hd : d ∈ modifyAt l i f) : d ∈ l ∨ ∃ a ∈ l, d = f a := by
  unfold modifyAt at hd
  cases hgi : l[i]? with
  | none => rw [hgi] at hd; exact Or.inl hd
  | some a =>
    rw [hgi] at hd
    rcases List.mem_or_eq_of_mem_set hd with h | h
    · exact Or.inl h
    · exact Or.inr ⟨a, List.getElem?_mem hgi, h⟩

theorem modifyAt_forall {P : Card → Prop} (l : List Card) (i : Nat)
    (f : Card → Card) (hl : ∀ d ∈ l, P d) (hf : ∀ a ∈ l, P (f a)) :
    ∀ d ∈ modifyAt l i f, P d := by
  intro d hd
  rcases mem_modifyAt l i f d hd with h | ⟨a, ha, rfl⟩
  · exact hl d h
  · exact hf a ha

theorem getElem?_modifyAt (l : List Card) (i : Nat) (f : Card → Card) :
    (modifyAt l i f)[i]? = (l[i]?).map f := by
  unfold modifyAt
  cases hgi : l[i]? with
  | none => dsimp only; exact hgi
  | some a =>
    dsimp only
    obtain ⟨hi, -⟩ := List.getElem?_eq_some_iff.1 hgi
    simp [List.getElem?_set_self (by simpa using hi)]

theorem length_modifyAt (l : List Card) (i : Nat) (f : Card → Card) :
    (modifyAt l i f).length = l.length := by
  unfold modifyAt
  cases hgi : l[i]? with
  | none => dsimp only
  | some a => dsimp only; exact List.length_set l i (f a)

/-- Claim C7: `schedule` sets `dueAt` to the question index plus an offset
drawn inclusively from [1,2] for box 1, [3,5] for box 2, [7,12] for box 3,
[15,24] for box 4, [28,40] for box 5, and from [3,6] for any other box
value; every offset in the range is attainable. -/
theorem schedule_ranges (qi r : Nat) (c : Card) :
    (c.box = 1 → qi + 1 ≤ (schedule qi r c).dueAt ∧
      (schedule qi r c).dueAt ≤ qi + 2) ∧
    (c.box = 2 → qi + 3 ≤ (schedule qi r c).dueAt ∧
      (schedule qi r c).dueAt ≤ qi + 5) ∧
    (c.box = 3 → qi + 7 ≤ (schedule qi r c).dueAt ∧
      (schedule qi r c).dueAt ≤ qi + 12) ∧
    (c.box = 4 → qi + 15 ≤ (schedule qi r c).dueAt ∧
      (schedule qi r c).dueAt ≤ qi + 24) ∧
    (c.box = 5 → qi + 28 ≤ (schedule qi r c).dueAt ∧
      (schedule qi r c).dueAt ≤ qi + 40) ∧
    ((c.box ≠ 1 ∧ c.box ≠ 2 ∧ c.box ≠ 3 ∧ c.box ≠ 4 ∧ c.box ≠ 5) →
      qi + 3 ≤ (schedule qi r c).dueAt ∧ (schedule qi r c).dueAt ≤ qi + 6) ∧
    (∀ off, (BOX_INTERVALS c.box).1 ≤ off → off ≤ (BOX_INTERVALS c.box).2 →
      ∃ rr, (schedule qi rr c).dueAt = qi + off) := by
  have h := schedule_in_box_interval qi r c
  refine ⟨?_, ?_, ?_, ?_, ?_, ?_, ?_⟩
  · intro hb; rw [hb] at h; simpa [BOX_INTERVALS] using h
  · intro hb; rw [hb] at h; simpa [BOX_INTERVALS] using h
  · intro hb; rw [hb] at h; simpa [BOX_INTERVALS] using h
  · intro hb; rw [hb] at h; simpa [BOX_INTERVALS] using h
  · intro hb; rw [hb] at h; simpa [BOX_INTERVALS] using h
  · rintro ⟨h1, h2, h3, h4, h5⟩
    rw [box_intervals_default c.box h1 h2 h3 h4 h5] at h
    simpa using h
  · intro off hlo hhi
    refine ⟨off - (BOX_INTERVALS c.box).1, ?_⟩
    unfold schedule
    dsimp only
    rw [rnd_attains _ _ _ hlo hhi]

def wCard7 : Card := ⟨"ch", "ch", 1, 0, ⟨0, 0⟩⟩

theorem schedule_ranges_witness :
    wCard7.box = 1 ∧
    (10 + 1 ≤ (schedule 10 0 wCard7).dueAt ∧
      (schedule 10 0 wCard7).dueAt ≤ 10 + 2) :=
  ⟨rfl, (schedule_ranges 10 0 wCard7).1 rfl⟩

/-! ### Deck shapes of the three answer paths -/

theorem onAnswerCorrect_deck (s : GState) (i : Nat) (tf : ℚ) (r : Nat) :
    (onAnswerCorrect s i tf r).deck =
      modifyAt (modifyAt (modifyAt s.deck i askedBump) i correctBump) i
        (promote s.questionIndex r) ∨
    ∃ x, (onAnswerCorrect s i tf r).deck =
      modifyAt (modifyAt (modifyAt s.deck i askedBump) i correctBump) i
        (promote s.questionIndex r) ++ [makeCard x] := by
  unfold onAnswerCorrect unlockNext
  dsimp only
  split
  · split
    · right; exact ⟨_, rfl⟩
    · left; rfl
  · left; rfl

theorem onAnswerWrong_deck (s : GState) (i : Nat) (r : Nat) :
    (onAnswerWrong s i r).deck =
      modifyAt (modifyAt s.deck i askedBump) i (demote s.questionIndex r) :=
  rfl

theorem timesUp_deck (s : GState) (i : Nat) (r : Nat) :
    (timesUp s i r).deck = modifyAt s.deck i (demote s.questionIndex r) :=
  rfl

/-- Claim C8: card creation, promotion and both demotions keep every box
in [1,5], and rescheduling never sets `dueAt` below the current question
index. -/
theorem box_invariants (x : Sound) (s : GState) (i : Nat) (tf : ℚ)
    (r qi : Nat) (c : Card) :
    (1 ≤ (makeCard x).box ∧ (makeCard x).box ≤ 5) ∧
    ((∀ d ∈ s.deck, 1 ≤ d.box ∧ d.box ≤ 5) →
      (∀ d ∈ (onAnswerCorrect s i tf r).deck, 1 ≤ d.box ∧ d.box ≤ 5) ∧
      (∀ d ∈ (onAnswerWrong s i r).deck, 1 ≤ d.box ∧ d.box ≤ 5) ∧
      (∀ d ∈ (timesUp s i r).deck, 1 ≤ d.box ∧ d.box ≤ 5)) ∧
    qi ≤ (schedule qi r c).dueAt := by
  refine ⟨⟨le_refl 1, by norm_num [makeCard]⟩, ?_, ?_⟩
  · intro hs
    have h1 : ∀ d ∈ modifyAt s.deck i askedBump, 1 ≤ d.box ∧ d.box ≤ 5 :=
      modifyAt_forall s.deck i askedBump hs (fun a ha => hs a ha)
    have h2 : ∀ d ∈ modifyAt (modifyAt s.deck i askedBump) i correctBump,
        1 ≤ d.box ∧ d.box ≤ 5 :=
      modifyAt_forall _ i correctBump h1 (fun a ha => h1 a ha)
    have h3 : ∀ d ∈ modifyAt (modifyAt (modifyAt s.deck i askedBump) i
        correctBump) i (promote s.questionIndex r), 1 ≤ d.box ∧ d.box ≤ 5 := by
      refine modifyAt_forall _ i _ h2 (fun a ha => ?_)
      have : (promote s.questionIndex r a).box = min 5 (a.box + 1) := rfl
      rw [this]
      omega
    refine ⟨?_, ?_, ?_⟩
    · intro d hd
      rcases onAnswerCorrect_deck s i tf r with heq | ⟨y, heq⟩
      · rw [heq] at hd
        exact h3 d hd
      · rw [heq] at hd
        rcases List.mem_append.1 hd with hmem | hmem
        · exact h3 d hmem
        · have : d = makeCard y := by simpa using hmem
          rw [this]
          exact ⟨le_refl 1, by norm_num [makeCard]⟩
    · intro d hd
      rw [onAnswerWrong_deck] at hd
      refine modifyAt_forall _ i _ h1 (fun a ha => ?_) d hd
      have : (demote s.questionIndex r a).box = 1 := rfl
      rw [this]
      omega
    · intro d hd
      rw [timesUp_deck] at hd
      refine modifyAt_forall _ i _ hs (fun a ha => ?_) d hd
      have : (demote s.questionIndex r a).box = 1 := rfl
      rw [this]
      omega
  · have h := schedule_in_box_interval qi r c
    have hpos := box_intervals_pos c.box
    omega

def wSound8 : Sound := ⟨"ch", "ch"⟩

def wState8 : GState :=
  ⟨1, 0, [⟨"ch", "ch", 1, 0, ⟨0, 0⟩⟩], 0, none, 0, 0, 0, 0, 0⟩

theorem box_invariants_witness :
    (∀ d ∈ wState8.deck, 1 ≤ d.box ∧ d.box ≤ 5) ∧
    ((∀ d ∈ (onAnswerCorrect wState8 0 1 0).deck, 1 ≤ d.box ∧ d.box ≤ 5) ∧
     (∀ d ∈ (onAnswerWrong wState8 0 0).deck, 1 ≤ d.box ∧ d.box ≤ 5) ∧
     (∀ d ∈ (timesUp wState8 0 0).deck, 1 ≤ d.box ∧ d.box ≤ 5)) :=
  ⟨by decide, (box_invariants wSound8 wState8 0 1 0 0 ⟨"ch", "ch", 1, 0, ⟨0, 0⟩⟩).2.1
    (by decide)⟩

/-! ### Scalar effects of the answer paths -/

theorem onAnswerCorrect_streak (s : GState) (i : Nat) (tf : ℚ) (r : Nat) :
    (onAnswerCorrect s i tf r).streak = s.streak + 1 := by
  unfold onAnswerCorrect
  dsimp only
  split
  · unfold unlockNext
    split <;> rfl
  · rfl

theorem onAnswerCorrect_asked (s : GState) (i : Nat) (tf : ℚ) (r : Nat) :
    (onAnswerCorrect s i tf r).asked = s.asked + 1 := by
  unfold onAnswerCorrect
  dsimp only
  split
  · unfold unlockNext
    split <;> rfl
  · rfl

theorem onAnswerCorrect_score (s : GState) (i : Nat) (tf : ℚ) (r : Nat) :
    (onAnswerCorrect s i tf r).score =
      s.score + round ((100 + ((round (100 * clamp01 tf) : ℤ) : ℚ)) *
        streakMult (s.streak + 1)) := by
  unfold onAnswerCorrect
  dsimp only
  split
  · unfold unlockNext
    split <;> rfl
  · rfl

theorem onAnswerCorrect_counter_lt (s : GState) (i : Nat) (tf : ℚ) (r : Nat)
    (h : s.correctSinceUnlock + 1 < 5) :
    (onAnswerCorrect s i tf r).correctSinceUnlock = s.correctSinceUnlock + 1 ∧
    (onAnswerCorrect s i tf r).activeCount = s.activeCount := by
  unfold onAnswerCorrect
  dsimp only
  rw [if_neg (by omega)]
  exact ⟨rfl, rfl⟩

theorem onAnswerCorrect_counter_unlock (s : GState) (i : Nat) (tf : ℚ)
    (r : Nat) (h : 5 ≤ s.correctSinceUnlock + 1)
    (h2 : s.activeCount < SOUNDS_ORDERED.length) :
    (onAnswerCorrect s i tf r).correctSinceUnlock = 0 ∧
    (onAnswerCorrect s i tf r).activeCount = s.activeCount + 1 := by
  unfold onAnswerCorrect
  dsimp only
  rw [if_pos (by omega)]
  unfold unlockNext
  dsimp only
  rw [dif_pos h2]
  exact ⟨rfl, rfl⟩

theorem onAnswerCorrect_counter_exhausted (s : GState) (i : Nat) (tf : ℚ)
    (r : Nat) (h : 5 ≤ s.correctSinceUnlock + 1)
    (h2 : SOUNDS_ORDERED.length ≤ s.activeCount) :
    (onAnswerCorrect s i tf r).correctSinceUnlock = s.correctSinceUnlock + 1 ∧
    (onAnswerCorrect s i tf r).activeCount = s.activeCount := by
  unfold onAnswerCorrect
  dsimp only
  rw [if_pos (by omega)]
  unfold unlockNext
  dsimp only
  rw [dif_neg (by omega)]
  exact ⟨rfl, rfl⟩

theorem onAnswerWrong_score (s : GState) (i : Nat) (r : Nat) :
    (onAnswerWrong s i r).score = max 0 (s.score - 20) := rfl

theorem onAnswerClick_correct_eq (s : GState) (i : Nat) (tf : ℚ) (r : Nat)
    (cur : Card) (hcur : s.deck[i]? = some cur) :
    onAnswerClick s i cur.g tf r = onAnswerCorrect s i tf r := by
  unfold onAnswerClick
  rw [hcur]
  dsimp only
  rw [if_pos rfl]

theorem onAnswerClick_wrong_eq (s : GState) (i : Nat) (chosen : String)
    (tf : ℚ) (r : Nat) (cur : Card) (hcur : s.deck[i]? = some cur)
    (hne : chosen ≠ cur.g) :
    onAnswerClick s i chosen tf r = onAnswerWrong s i r := by
  unfold onAnswerClick
  rw [hcur]
  dsimp only
  rw [if_neg hne]

theorem full_time_gain :
    (round ((100 + ((round ((100 : ℚ) * clamp01 1) : ℤ) : ℚ)) *
      streakMult (0 + 1)) : ℤ) = 210 := by
  have h1 : clamp01 1 = 1 := by norm_num [clamp01]
  rw [h1, mul_one, round_ofNat]
  have h3 : streakMult (0 + 1) = 21 / 20 := by
    unfold streakMult
    rw [min_eq_right (by norm_num)]
    norm_num
  rw [h3]
  have h4 : ((100 : ℚ) + (((100 : ℕ) : ℤ) : ℚ)) * (21 / 20) = 210 := by
    norm_num
  rw [h4, round_ofNat]
  norm_num

/-- Claim C1 (amended): a correct answer with streak 0 before the answer
and the full timer remaining adds exactly 210 points — the streak
multiplier is computed from the already-incremented streak, so it is 1.05
rather than 1.0; an incorrect answer always subtracts 20 points, floored
at 0. -/
theorem scoring_deltas (s : GState) (i r : Nat) (tf : ℚ) (cur : Card)
    (hcur : s.deck[i]? = some cur) :
    (s.streak = 0 → (onAnswerClick s i cur.g 1 r).score = s.score + 210) ∧
    (∀ chosen, chosen ≠ cur.g →
      (onAnswerClick s i chosen tf r).score = max 0 (s.score - 20) ∧
      0 ≤ (onAnswerClick s i chosen tf r).score) := by
  constructor
  · intro hstreak
    rw [onAnswerClick_correct_eq s i 1 r cur hcur, onAnswerCorrect_score,
      hstreak, full_time_gain]
  · intro chosen hne
    rw [onAnswerClick_wrong_eq s i chosen tf r cur hcur hne,
      onAnswerWrong_score]
    exact ⟨rfl, le_max_left 0 (s.score - 20)⟩

def cexCard1 : Card := ⟨"ch", "ch", 1, 0, ⟨0, 0⟩⟩

def cexState1 : GState := ⟨4, 0, [cexCard1], 0, none, 0, 0, 0, 0, 0⟩

/-- Counterexample to C1 as stated: at streak 0 with the full timer, the
score increases by 210 (the multiplier already includes the new streak),
not by 200. -/
theorem scoring_deltas_cex :
    cexState1.streak = 0 ∧ cexState1.score = 0 ∧
    cexState1.deck[0]? = some cexCard1 ∧
    (onAnswerClick cexState1 0 cexCard1.g 1 0).score = 210 ∧
    (210 : ℤ) ≠ cexState1.score + 200 := by
  refine ⟨rfl, rfl, rfl, ?_, by decide⟩
  rw [onAnswerClick_correct_eq cexState1 0 1 0 cexCard1 rfl,
    onAnswerCorrect_score]
  have hs : cexState1.score = 0 := rfl
  have hstreak : cexState1.streak = 0 := rfl
  rw [hs, hstreak, full_time_gain]
  norm_num

def wCard1 : Card := ⟨"ou", "ou", 2, 0, ⟨3, 1⟩⟩

def wState1 : GState := ⟨4, 1, [wCard1], 5, none, 40, 3, 1, 0, 0⟩

theorem scoring_deltas_witness :
    wState1.deck[0]? = some wCard1 ∧
    ((wState1.streak = 0 →
      (onAnswerClick wState1 0 wCard1.g 1 0).score = wState1.score + 210) ∧
     (∀ chosen, chosen ≠ wCard1.g →
      (onAnswerClick wState1 0 chosen (1 / 2) 0).score =
        max 0 (wState1.score - 20) ∧
      0 ≤ (onAnswerClick wState1 0 chosen (1 / 2) 0).score)) :=
  ⟨by decide, scoring_deltas wState1 0 0 (1 / 2) wCard1 (by decide)⟩

/-! ### Progression (C2) and timeout (C3) -/

/-- Five successive correct answers on the card at index `i`. -/
def fiveCorrect (s : GState) (i : Nat) (tf : ℚ) (r : Nat) : GState :=
  (fun t => onAnswerCorrect t i tf r)^[5] s

/-- Claim C2 (amended): every correct answer increments the
correct-since-unlock counter and, once the counter reaches 5,
`unlockNext` is invoked; the counter is reset to 0 only when that unlock
succeeds — on catalog exhaustion it keeps its incremented value. After
exactly 5 correct answers with the catalog not exhausted, the active
card count increases by exactly 1 and the counter is 0. -/
theorem progression_unlock (s : GState) (i : Nat) (tf : ℚ) (r : Nat) :
    (s.correctSinceUnlock + 1 < 5 →
      (onAnswerCorrect s i tf r).correctSinceUnlock =
        s.correctSinceUnlock + 1 ∧
      (onAnswerCorrect s i tf r).activeCount = s.activeCount) ∧
    (5 ≤ s.correctSinceUnlock + 1 → s.activeCount < SOUNDS_ORDERED.length →
      (onAnswerCorrect s i tf r).correctSinceUnlock = 0 ∧
      (onAnswerCorrect s i tf r).activeCount = s.activeCount + 1) ∧
    (5 ≤ s.correctSinceUnlock + 1 → SOUNDS_ORDERED.length ≤ s.activeCount →
      (onAnswerCorrect s i tf r).correctSinceUnlock =
        s.correctSinceUnlock + 1 ∧
      (onAnswerCorrect s i tf r).activeCount = s.activeCount) ∧
    (s.correctSinceUnlock = 0 → s.activeCount < SOUNDS_ORDERED.length →
      (fiveCorrect s i tf r).activeCount = s.activeCount + 1 ∧
      (fiveCorrect s i tf r).correctSinceUnlock = 0) := by
  refine ⟨fun h => onAnswerCorrect_counter_lt s i tf r h,
    fun h h2 => onAnswerCorrect_counter_unlock s i tf r h h2,
    fun h h2 => onAnswerCorrect_counter_exhausted s i tf r h h2, ?_⟩
  intro h0 hact
  have e1 := onAnswerCorrect_counter_lt s i tf r (by omega)
  have e2 := onAnswerCorrect_counter_lt (onAnswerCorrect s i tf r) i tf r
    (by rw [e1.1]; omega)
  have e3 := onAnswerCorrect_counter_lt
    (onAnswerCorrect (onAnswerCorrect s i tf r) i tf r) i tf r
    (by rw [e2.1, e1.1]; omega)
  have e4 := onAnswerCorrect_counter_lt
    (onAnswerCorrect (onAnswerCorrect (onAnswerCorrect s i tf r) i tf r)
      i tf r) i tf r
    (by rw [e3.1, e2.1, e1.1]; omega)
  have e5 := onAnswerCorrect_counter_unlock
    (onAnswerCorrect (onAnswerCorrect (onAnswerCorrect
      (onAnswerCorrect s i tf r) i tf r) i tf r) i tf r) i tf r
    (by rw [e4.1, e3.1, e2.1, e1.1]; omega)
    (by rw [e4.2, e3.2, e2.2, e1.2]; exact hact)
  have hfive : fiveCorrect s i tf r =
      onAnswerCorrect (onAnswerCorrect (onAnswerCorrect (onAnswerCorrect
        (onAnswerCorrect s i tf r) i tf r) i tf r) i tf r) i tf r := rfl
  rw [hfive]
  refine ⟨?_, e5.1⟩
  rw [e5.2, e4.2, e3.2, e2.2, e1.2]

def cexState2 : GState :=
  ⟨28, 4, [⟨"ch", "ch", 1, 0, ⟨0, 0⟩⟩], 0, none, 0, 0, 0, 0, 0⟩

/-- Counterexample to C2 as stated: with the catalog exhausted
(activeCount = 28 = catalog size) and 4 correct answers since the last
unlock, a further correct answer drives the counter to 5, `unlockNext`
fails, and the counter is not reset to 0. -/
theorem progression_unlock_cex :
    cexState2.activeCount = SOUNDS_ORDERED.length ∧
    cexState2.correctSinceUnlock = 4 ∧
    (onAnswerCorrect cexState2 0 1 0).correctSinceUnlock = 5 ∧
    (onAnswerCorrect cexState2 0 1 0).correctSinceUnlock ≠ 0 := by
  have h := onAnswerCorrect_counter_exhausted cexState2 0 1 0
    (by decide) (by decide)
  refine ⟨by decide, by decide, ?_, ?_⟩
  · rw [h.1]
    decide
  · rw [h.1]
    decide

def wState2 : GState :=
  ⟨4, 0, [⟨"ch", "ch", 1, 0, ⟨0, 0⟩⟩], 0, none, 0, 0, 0, 0, 0⟩

theorem progression_unlock_witness :
    wState2.correctSinceUnlock = 0 ∧
    wState2.activeCount < SOUNDS_ORDERED.length ∧
    ((fiveCorrect wState2 0 1 0).activeCount = wState2.activeCount + 1 ∧
     (fiveCorrect wState2 0 1 0).correctSinceUnlock = 0) :=
  ⟨by decide, by decide,
   (progression_unlock wState2 0 1 0).2.2.2 (by decide) (by decide)⟩

/-- Claim C3 (amended): a timeout resets the streak to 0, resets the
current card's box to 1 and reschedules it 1–2 questions ahead, and
increments the global asked counter; unlike an incorrect answer it leaves
the score unchanged and does not touch the card's stats (in particular
`stats.asked` is not incremented). -/
theorem timesUp_effects (s : GState) (i r : Nat) (cur : Card)
    (hcur : s.deck[i]? = some cur) :
    (timesUp s i r).streak = 0 ∧
    (timesUp s i r).asked = s.asked + 1 ∧
    (timesUp s i r).score = s.score ∧
    (timesUp s i r).deck[i]? = some (demote s.questionIndex r cur) ∧
    (demote s.questionIndex r cur).box = 1 ∧
    s.questionIndex + 1 ≤ (demote s.questionIndex r cur).dueAt ∧
    (demote s.questionIndex r cur).dueAt ≤ s.questionIndex + 2 ∧
    (demote s.questionIndex r cur).stats = cur.stats := by
  have hdue := schedule_in_box_interval s.questionIndex r
    { cur with box := 1 }
  have hbi : BOX_INTERVALS ({ cur with box := 1 } : Card).box = (1, 2) := rfl
  rw [hbi] at hdue
  refine ⟨rfl, rfl, rfl, ?_, rfl, ?_, ?_, rfl⟩
  · rw [timesUp_deck, getElem?_modifyAt, hcur]
    rfl
  · exact hdue.1
  · exact hdue.2

def cexCard3 : Card := ⟨"ch", "ch", 3, 0, ⟨7, 5⟩⟩

def cexState3 : GState := ⟨4, 0, [cexCard3], 10, none, 100, 7, 5, 2, 0⟩

/-- Counterexample to C3 as stated: on a timeout the score stays 100
rather than dropping by 20, and the card's `stats.asked` stays 7 rather
than being incremented. -/
theorem timesUp_effects_cex :
    cexState3.score = 100 ∧
    (timesUp cexState3 0 0).score = 100 ∧
    (100 : ℤ) ≠ max 0 (cexState3.score - 20) ∧
    cexCard3.stats.asked = 7 ∧
    (∀ c ∈ (timesUp cexState3 0 0).deck, c.stats.asked = 7) := by decide

def wCard3 : Card := ⟨"ou", "ou", 4, 2, ⟨6, 4⟩⟩

def wState3 : GState := ⟨4, 2, [wCard3], 9, none, 250, 6, 4, 1, 2⟩

theorem timesUp_effects_witness :
    wState3.deck[0]? = some wCard3 ∧
    ((timesUp wState3 0 0).streak = 0 ∧
     (timesUp wState3 0 0).asked = wState3.asked + 1 ∧
     (timesUp wState3 0 0).score = wState3.score ∧
     (timesUp wState3 0 0).deck[0]? =
       some (demote wState3.questionIndex 0 wCard3) ∧
     (demote wState3.questionIndex 0 wCard3).box = 1 ∧
     wState3.questionIndex + 1 ≤ (demote wState3.questionIndex 0 wCard3).dueAt ∧
     (demote wState3.questionIndex 0 wCard3).dueAt ≤ wState3.questionIndex + 2 ∧
     (demote wState3.questionIndex 0 wCard3).stats = wCard3.stats) :=
  ⟨by decide, timesUp_effects wState3 0 0 wCard3 (by decide)⟩

/-! ### Card store frame (C9) -/

def symFam (c : Card) : String × String := (c.g, c.fam)

/-- The card-store invariant: the deck is, symbol- and family-wise, the
catalog prefix of length `activeCount`, and its size is `activeCount`. -/
def deckMatchesCatalog (s : GState) : Prop :=
  s.deck.map symFam =
    (SOUNDS_ORDERED.take s.activeCount).map (fun x => (x.g, x.fam)) ∧
  s.deck.length = s.activeCount

theorem unlockNext_preserves (s : GState) (h : deckMatchesCatalog s) :
    deckMatchesCatalog (unlockNext s).2 := by
  obtain ⟨hmap, hlen⟩ := h
  unfold unlockNext deckMatchesCatalog
  split
  · next hlt =>
    dsimp only
    constructor
    · rw [List.map_append, hmap, List.take_succ, List.map_append,
        List.getElem?_eq_getElem hlt]
      rfl
    · simp [hlen]
  · next hge => exact ⟨hmap, hlen⟩

/-- Claim C9: `unlockNext` only ever appends one fresh card at the end of
the deck, leaving existing cards and their order unchanged (and is the
identity on catalog exhaustion); after `initDeck` and any number of
unlocks the deck's (symbol, family) sequence is the catalog prefix of
length `activeCount` and the deck size equals `activeCount`. -/
theorem unlock_frame (s : GState) (k : Nat) :
    (s.activeCount < SOUNDS_ORDERED.length →
      ∃ x, (unlockNext s).2.deck = s.deck ++ [makeCard x] ∧
        (makeCard x).box = 1 ∧ (makeCard x).dueAt = 0 ∧
        (makeCard x).stats = ⟨0, 0⟩) ∧
    (SOUNDS_ORDERED.length ≤ s.activeCount → (unlockNext s).2 = s) ∧
    (s.activeCount ≤ SOUNDS_ORDERED.length →
      deckMatchesCatalog (initDeck s)) ∧
    (deckMatchesCatalog s → deckMatchesCatalog (unlockNext s).2) ∧
    (deckMatchesCatalog s →
      deckMatchesCatalog ((fun t => (unlockNext t).2)^[k] s)) := by
  refine ⟨?_, ?_, ?_, unlockNext_preserves s, ?_⟩
  · intro h
    refine ⟨SOUNDS_ORDERED.get ⟨s.activeCount, h⟩, ?_, rfl, rfl, rfl⟩
    unfold unlockNext
    rw [dif_pos h]
  · intro h
    unfold unlockNext
    rw [dif_neg (by omega)]
  · intro h
    unfold deckMatchesCatalog initDeck
    dsimp only
    constructor
    · rw [List.map_map]
      rfl
    · simp only [List.length_map, List.length_take]
      omega
  · intro h
    induction k with
    | zero => exact h
    | succ n ih =>
      rw [Function.iterate_succ_apply']
      exact unlockNext_preserves _ ih

def wState9 : GState :=
  ⟨2, 0, [⟨"ch", "ch", 3, 7, ⟨2, 1⟩⟩, ⟨"ou", "ou", 1, 4, ⟨3, 0⟩⟩],
   12, some "ou", 60, 5, 3, 1, 2⟩

theorem unlock_frame_witness :
    wState9.activeCount < SOUNDS_ORDERED.length ∧
    deckMatchesCatalog wState9 ∧
    (∃ x, (unlockNext wState9).2.deck = wState9.deck ++ [makeCard x] ∧
      (makeCard x).box = 1 ∧ (makeCard x).dueAt = 0 ∧
      (makeCard x).stats = ⟨0, 0⟩) ∧
    deckMatchesCatalog (unlockNext wState9).2 ∧
    deckMatchesCatalog ((fun t => (unlockNext t).2)^[3] wState9) :=
  ⟨by decide, by unfold deckMatchesCatalog; decide,
   (unlock_frame wState9 3).1 (by decide),
   (unlock_frame wState9 3).2.2.2.1 (by unfold deckMatchesCatalog; decide),
   (unlock_frame wState9 3).2.2.2.2 (by unfold deckMatchesCatalog; decide)⟩

/-! ### Distractor builder (C6) -/

/-- Project a deck card onto its catalog data (the builder only reads
`g` and `fam` from pool entries). -/
def cardSound (c : Card) : Sound := ⟨c.g, c.fam⟩

/-- The family a symbol carries in the catalog (first match). -/
def famOf (g : String) : String :=
  match SOUNDS_ORDERED.find? (fun x => x.g = g) with
  | some x => x.fam
  | none => g

/-- `pool`: active cards excluding the target's symbol and family. -/
def poolOf (s : GState) (target : Card) : List Sound :=
  (s.deck.filter (fun c => c.g ≠ target.g ∧ c.fam ≠ target.fam)).map cardSound

/-- `extra`: catalog backup drawn in when `pool` is small. -/
def extraOf (s : GState) (target : Card) : List Sound :=
  if (poolOf s target).length < 3 then
    SOUNDS_ORDERED.filter (fun x => x.g ≠ target.g ∧ x.fam ≠ target.fam ∧
      s.deck.all (fun c => c.g ≠ x.g))
  else []

/-- `totalPool = [...pool, ...extra]`. -/
def totalPoolOf (s : GState) (target : Card) : List Sound :=
  poolOf s target ++ extraOf s target

/-- The first loop of `buildOptions`: while fewer than 3 distractors and
the pool is non-empty, splice out a random pool entry and accept it iff
its family is unused. The loop consumes one pool entry per iteration, so
the fuel `totalPool.length` passed by `buildOptions` makes the fuel-0
exit coincide with the pool-empty exit. -/
def drawDistractors (rng : Nat → Nat) :
    Nat → Nat → List Sound → List Sound → List String → List Sound × Nat
  | 0, k, _, ds, _ => (ds, k)
  | fuel + 1, k, pool, ds, famUsed =>
    if ds.length < 3 then
      match pool[rnd 0 (pool.length - 1) (rng k)]? with
      | none => (ds, k)
      | some pick =>
        if pick.fam ∈ famUsed then
          drawDistractors rng fuel (k + 1)
            (pool.eraseIdx (rnd 0 (pool.length - 1) (rng k))) ds famUsed
        else
          drawDistractors rng fuel (k + 1)
            (pool.eraseIdx (rnd 0 (pool.length - 1) (rng k)))
            (ds ++ [pick]) (famUsed ++ [pick.fam])
    else (ds, k)

/-- The backfill loop of `buildOptions`: while fewer than 3 distractors,
draw uniformly from the whole catalog, accepting any entry whose symbol
differs from the target's and from the already-chosen ones. This loop
can retry arbitrarily often, so it carries explicit fuel and fails with
`none` on exhaustion. -/
def backfill (rng : Nat → Nat) (targetG : String) :
    Nat → Nat → List Sound → Option (List Sound × Nat)
  | 0, k, ds => if ds.length < 3 then none else some (ds, k)
  | fuel + 1, k, ds =>
    if ds.length < 3 then
      match SOUNDS_ORDERED[rnd 0 (SOUNDS_ORDERED.length - 1) (rng k)]? with
      | none => none
      | some any =>
        if any.g ≠ targetG ∧ ds.all (fun d => d.g ≠ any.g) then
          backfill rng targetG fuel (k + 1) (ds ++ [any])
        else backfill rng targetG fuel (k + 1) ds
    else some (ds, k)

/-- One Fisher–Yates swap `[options[i], options[j]] = [options[j],
options[i]]`. -/
def swapIdx (l : List String) (i j : Nat) : List String :=
  match l[i]?, l[j]? with
  | some a, some b => (l.set i b).set j a
  | _, _ => l

/-- The Fisher–Yates downward loop, at position `i = v` with random
stream position `k`. -/
def fySteps (rng : Nat → Nat) : Nat → List String → Nat → List String
  | _, l, 0 => l
  | k, l, v + 1 => fySteps rng (k + 1) (swapIdx l (v + 1) (rng k % (v + 2))) v

/-- `buildOptions(target)` from the source, with `rng` supplying the
random draws and `fuel` bounding the backfill loop: run the draw loop on
`totalPool` (its fuel, `totalPool.length`, is exactly the maximal number
of iterations of the source's splicing loop), backfill to 3 distractors,
assemble `[target.g, ...distractors]` and Fisher–Yates-shuffle it. -/
def buildOptions (rng : Nat → Nat) (fuel : Nat) (s : GState)
    (target : Card) : Option (List String) :=
  match backfill rng target.g fuel
      (drawDistractors rng (totalPoolOf s target).length 0
        (totalPoolOf s target) [] [target.fam]).2
      (drawDistractors rng (totalPoolOf s target).length 0
        (totalPoolOf s target) [] [target.fam]).1 with
  | none => none
  | some dk2 =>
    some (fySteps rng dk2.2 (target.g :: dk2.1.map (fun d => d.g))
      ((target.g :: dk2.1.map (fun d => d.g)).length - 1))

theorem perm_getElem_cons_eraseIdx {α : Type _} (l : List α) (i : Nat)
    (h : i < l.length) : List.Perm l (l[i] :: l.eraseIdx i) := by
  conv_lhs => rw [← List.take_append_drop i l]
  rw [List.eraseIdx_eq_take_drop_succ, ← List.getElem_cons_drop l i h]
  exact List.perm_middle

theorem sounds_g_nodup : (SOUNDS_ORDERED.map (fun x => x.g)).Nodup := by
  decide

theorem famOf_catalog : ∀ x ∈ SOUNDS_ORDERED, famOf x.g = x.fam := by decide

theorem cons_set_perm {α : Type _} (x : α) :
    ∀ (l : List α) (k : Nat) (h : k < l.length),
      List.Perm (l[k] :: l.set k x) (x :: l)
  | [], k, h => absurd h (by simp)
  | y :: t, 0, _ => List.Perm.swap x y t
  | y :: t, k + 1, h =>
    (List.Perm.swap y (t.get ⟨k, by simpa using h⟩) (t.set k x)).trans
      (((cons_set_perm x t k (by simpa using h)).cons y).trans
        (List.Perm.swap x y t))

theorem set_set_perm {α : Type _} (l : List α) (i j : Nat)
    (hi : i < l.length) (hj : j < l.length) :
    List.Perm ((l.set i l[j]).set j l[i]) l := by
  induction l generalizing i j with
  | nil => simp at hi
  | cons y t ih =>
    cases i with
    | zero =>
      cases j with
      | zero => simp
      | succ k =>
        have hk : k < t.length := by simpa using hj
        exact cons_set_perm y t k hk
    | succ m =>
      cases j with
      | zero =>
        have hm : m < t.length := by simpa using hi
        exact cons_set_perm y t m hm
      | succ k =>
        have hm : m < t.length := by simpa using hi
        have hk : k < t.length := by simpa using hj
        exact (ih m k hm hk).cons y

theorem swapIdx_perm (l : List String) (i j : Nat) :
    List.Perm (swapIdx l i j) l := by
  unfold swapIdx
  cases hi : l[i]? with
  | none => exact List.Perm.refl l
  | some a =>
    cases hj : l[j]? with
    | none => exact List.Perm.refl l
    | some b =>
      obtain ⟨hi', ha⟩ := List.getElem?_eq_some_iff.1 hi
      obtain ⟨hj', hb⟩ := List.getElem?_eq_some_iff.1 hj
      dsimp only
      rw [← ha, ← hb]
      exact set_set_perm l i j hi' hj'

theorem fySteps_perm :
    ∀ (rng : Nat → Nat) (n k : Nat) (l : List String),
      List.Perm (fySteps rng k l n) l
  | _, 0, _, _ => List.Perm.refl _
  | rng, v + 1, k, l =>
    (fySteps_perm rng v (k + 1) _).trans
      (swapIdx_perm l (v + 1) (rng k % (v + 2)))

theorem nodup_g_of_append {ds pool : List Sound}
    (hg : ((ds ++ pool).map (fun x => x.g)).Nodup) :
    (ds.map (fun x => x.g)).Nodup :=
  List.Nodup.sublist ((List.sublist_append_left ds pool).map _) hg

theorem drawDistractors_spec (rng : Nat → Nat) (fuel : Nat) :
    ∀ (k : Nat) (pool ds : List Sound) (famUsed : List String),
    ds.length ≤ 3 →
    (∀ d ∈ ds, d.fam ∈ famUsed) →
    ((ds.map (fun x => x.fam)).Nodup) →
    ∃ t kf,
      drawDistractors rng fuel k pool ds famUsed = (ds ++ t, kf) ∧
      (∀ x ∈ t, x ∈ pool) ∧
      (ds ++ t).length ≤ 3 ∧
      (((ds ++ t).map (fun x => x.fam)).Nodup) ∧
      (∀ x ∈ t, x.fam ∉ famUsed) ∧
      (((ds ++ pool).map (fun x => x.g)).Nodup →
        (((ds ++ t).map (fun x => x.g)).Nodup)) := by
  induction fuel with
  | zero =>
    intro k pool ds famUsed hlen hcov hnd
    exact ⟨[], k, by simp [drawDistractors], by simp, by simpa using hlen,
      by simpa using hnd, by simp,
      fun hg => by simpa using nodup_g_of_append hg⟩
  | succ fuel ih =>
    intro k pool ds famUsed hlen hcov hnd
    by_cases h3 : ds.length < 3
    · cases hpick : pool[rnd 0 (pool.length - 1) (rng k)]? with
      | none =>
        refine ⟨[], k, ?_, by simp, by simpa using hlen, by simpa using hnd,
          by simp, fun hg => by simpa using nodup_g_of_append hg⟩
        simp [drawDistractors, if_pos h3, hpick]
      | some pick =>
        obtain ⟨hi, hpe⟩ := List.getElem?_eq_some_iff.1 hpick
        have hperm : List.Perm pool
            (pick :: pool.eraseIdx (rnd 0 (pool.length - 1) (rng k))) := by
          rw [← hpe]
          exact perm_getElem_cons_eraseIdx pool _ hi
        by_cases hfam : pick.fam ∈ famUsed
        · obtain ⟨t, kf, heq, hmem, hl, hnd2, hnf, hgimp⟩ :=
            ih (k + 1) (pool.eraseIdx (rnd 0 (pool.length - 1) (rng k))) ds
              famUsed hlen hcov hnd
          refine ⟨t, kf, ?_, ?_, hl, hnd2, hnf, ?_⟩
          · rw [drawDistractors, if_pos h3, hpick]
            dsimp only
            rw [if_pos hfam]
            exact heq
          · intro x hx
            exact hperm.mem_iff.2 (List.mem_cons_of_mem pick (hmem x hx))
          · intro hg
            apply hgimp
            have hg2 : ((ds ++ (pick :: pool.eraseIdx
                (rnd 0 (pool.length - 1) (rng k)))).map
                  (fun x => x.g)).Nodup :=
              (((hperm.append_left ds).map (fun x => x.g)).nodup_iff).1 hg
            exact List.Nodup.sublist
              (((List.sublist_cons_self pick _).append_left ds).map _) hg2
        · obtain ⟨t, kf, heq, hmem, hl, hnd2, hnf, hgimp⟩ :=
            ih (k + 1) (pool.eraseIdx (rnd 0 (pool.length - 1) (rng k)))
              (ds ++ [pick]) (famUsed ++ [pick.fam])
              (by simp; omega)
              (by
                intro d hd
                rcases List.mem_append.1 hd with h | h
                · exact List.mem_append_left _ (hcov d h)
                · rw [List.mem_singleton.1 h]
                  exact List.mem_append_right _ (List.mem_singleton_self _))
              (by
                rw [List.map_append]
                refine List.Nodup.append hnd (by simp) ?_
                intro y hy hy2
                have hyp : y = pick.fam := by simpa using hy2
                rw [hyp] at hy
                obtain ⟨d, hd, hdf⟩ := List.mem_map.1 hy
                exact hfam (hdf ▸ hcov d hd))
          refine ⟨pick :: t, kf, ?_, ?_, ?_, ?_, ?_, ?_⟩
          · rw [drawDistractors, if_pos h3, hpick]
            dsimp only
            rw [if_neg hfam]
            rw [heq]
            simp
          · intro x hx
            rcases List.mem_cons.1 hx with rfl | hx2
            · exact List.getElem?_mem hpick
            · exact hperm.mem_iff.2 (List.mem_cons_of_mem pick (hmem x hx2))
          · simpa using hl
          · simpa using hnd2
          · intro x hx
            rcases List.mem_cons.1 hx with rfl | hx2
            · exact hfam
            · intro hmem2
              exact hnf x hx2 (List.mem_append_left _ hmem2)
          · intro hg
            have hg2 : (((ds ++ [pick]) ++ pool.eraseIdx
                (rnd 0 (pool.length - 1) (rng k))).map
                  (fun x => x.g)).Nodup := by
              rw [List.append_assoc, List.singleton_append]
              exact (((hperm.append_left ds).map (fun x => x.g)).nodup_iff).1 hg
            have := hgimp hg2
            simpa using this
    · exact ⟨[], k, by simp [drawDistractors, if_neg h3], by simp,
        by simpa using hlen, by simpa using hnd, by simp,
        fun hg => by simpa using nodup_g_of_append hg⟩

/-- The distinct families still available in the pool. -/
def famsAvail (pool : List Sound) (famUsed : List String) : Finset String :=
  ((pool.filter (fun x => x.fam ∉ famUsed)).map (fun x => x.fam)).toFinset

theorem drawDistractors_complete (rng : Nat → Nat) (fuel : Nat) :
    ∀ (k : Nat) (pool ds : List Sound) (famUsed : List String),
    pool.length ≤ fuel →
    ds.length ≤ 3 →
    3 ≤ ds.length + (famsAvail pool famUsed).card →
    (drawDistractors rng fuel k pool ds famUsed).1.length = 3 := by
  induction fuel with
  | zero =>
    intro k pool ds famUsed hpl hdl hcard
    have hnil : pool = [] := List.length_eq_zero.1 (by omega)
    subst hnil
    simp only [famsAvail, List.filter_nil, List.map_nil, List.toFinset_nil,
      Finset.card_empty] at hcard
    simp only [drawDistractors]
    omega
  | succ fuel ih =>
    intro k pool ds famUsed hpl hdl hcard
    by_cases h3 : ds.length < 3
    · have hpne : pool ≠ [] := by
        intro h0
        subst h0
        simp only [famsAvail, List.filter_nil, List.map_nil,
          List.toFinset_nil, Finset.card_empty] at hcard
        omega
      have hplen : 0 < pool.length := List.length_pos.2 hpne
      have hi : rnd 0 (pool.length - 1) (rng k) < pool.length := by
        have h := rnd_mem 0 (pool.length - 1) (rng k) (by omega)
        omega
      have hpick : pool[rnd 0 (pool.length - 1) (rng k)]? =
          some (pool[rnd 0 (pool.length - 1) (rng k)]) :=
        List.getElem?_eq_getElem hi
      have hperm := perm_getElem_cons_eraseIdx pool
        (rnd 0 (pool.length - 1) (rng k)) hi
      have herlen : (pool.eraseIdx (rnd 0 (pool.length - 1) (rng k))).length =
          pool.length - 1 := List.length_eraseIdx_of_lt hi
      rw [drawDistractors, if_pos h3, hpick]
      dsimp only
      by_cases hfam : (pool[rnd 0 (pool.length - 1) (rng k)]).fam ∈ famUsed
      · rw [if_pos hfam]
        apply ih (k + 1) _ ds famUsed (by omega) hdl
        have hsub : famsAvail pool famUsed ⊆
            famsAvail (pool.eraseIdx (rnd 0 (pool.length - 1) (rng k)))
              famUsed := by
          intro y hy
          simp only [famsAvail, List.mem_toFinset, List.mem_map,
            List.mem_filter, decide_eq_true_eq] at hy ⊢
          obtain ⟨x, ⟨hxp, hxf⟩, rfl⟩ := hy
          refine ⟨x, ⟨?_, hxf⟩, rfl⟩
          have hx2 := hperm.mem_iff.1 hxp
          rcases List.mem_cons.1 hx2 with rfl | h
          · exact absurd hfam hxf
          · exact h
        have := Finset.card_le_card hsub
        omega
      · rw [if_neg hfam]
        apply ih (k + 1) _
          (ds ++ [pool[rnd 0 (pool.length - 1) (rng k)]])
          (famUsed ++ [(pool[rnd 0 (pool.length - 1) (rng k)]).fam])
          (by omega) (by simp; omega)
        have hsub : famsAvail pool famUsed ⊆
            insert (pool[rnd 0 (pool.length - 1) (rng k)]).fam
              (famsAvail (pool.eraseIdx (rnd 0 (pool.length - 1) (rng k)))
                (famUsed ++ [(pool[rnd 0 (pool.length - 1) (rng k)]).fam])) := by
          intro y hy
          simp only [famsAvail, List.mem_toFinset, List.mem_map,
            List.mem_filter, decide_eq_true_eq, Finset.mem_insert] at hy ⊢
          obtain ⟨x, ⟨hxp, hxf⟩, rfl⟩ := hy
          by_cases hxpick : x.fam =
              (pool[rnd 0 (pool.length - 1) (rng k)]).fam
          · exact Or.inl hxpick
          · refine Or.inr ⟨x, ⟨?_, ?_⟩, rfl⟩
            · have hx2 := hperm.mem_iff.1 hxp
              rcases List.mem_cons.1 hx2 with rfl | h
              · exact absurd rfl hxpick
              · exact h
            · intro hmem
              rcases List.mem_append.1 hmem with h | h
              · exact hxf h
              · exact hxpick (by simpa using h)
        have hc2 := Finset.card_le_card hsub
        have hc3 := Finset.card_insert_le
          (pool[rnd 0 (pool.length - 1) (rng k)]).fam
          (famsAvail (pool.eraseIdx (rnd 0 (pool.length - 1) (rng k)))
            (famUsed ++ [(pool[rnd 0 (pool.length - 1) (rng k)]).fam]))
        simp only [List.length_append, List.length_singleton]
        omega
    · rw [drawDistractors, if_neg h3]
      dsimp only
      omega

theorem backfill_exit (rng : Nat → Nat) (targetG : String) (fuel k : Nat)
    (ds : List Sound) (h : ¬ ds.length < 3) :
    backfill rng targetG fuel k ds = some (ds, k) := by
  cases fuel with
  | zero => simp [backfill, h]
  | succ fuel => simp [backfill, h]

theorem backfill_spec (rng : Nat → Nat) (targetG : String) (fuel : Nat) :
    ∀ (k : Nat) (ds ds2 : List Sound) (k2 : Nat),
    backfill rng targetG fuel k ds = some (ds2, k2) →
    ds.length ≤ 3 →
    ds2.length = 3 ∧
    (((ds.map (fun x => x.g)).Nodup ∧ targetG ∉ ds.map (fun x => x.g)) →
      ((ds2.map (fun x => x.g)).Nodup ∧
        targetG ∉ ds2.map (fun x => x.g))) := by
  induction fuel with
  | zero =>
    intro k ds ds2 k2 heq hlen
    by_cases h3 : ds.length < 3
    · simp [backfill, h3] at heq
    · simp only [backfill, if_neg h3, Option.some_inj, Prod.mk.injEq] at heq
      obtain ⟨rfl, rfl⟩ := heq
      exact ⟨by omega, fun h => h⟩
  | succ fuel ih =>
    intro k ds ds2 k2 heq hlen
    by_cases h3 : ds.length < 3
    · rw [backfill, if_pos h3] at heq
      cases hcat : SOUNDS_ORDERED[rnd 0 (SOUNDS_ORDERED.length - 1)
          (rng k)]? with
      | none => rw [hcat] at heq; exact absurd heq (by simp)
      | some any =>
        rw [hcat] at heq
        dsimp only at heq
        by_cases hacc : any.g ≠ targetG ∧
            (ds.all (fun d => d.g ≠ any.g)) = true
        · rw [if_pos hacc] at heq
          obtain ⟨hl2, himp⟩ := ih (k + 1) (ds ++ [any]) ds2 k2 heq
            (by simp; omega)
          refine ⟨hl2, fun hh => himp ⟨?_, ?_⟩⟩
          · rw [List.map_append]
            refine List.Nodup.append hh.1 (by simp) ?_
            intro y hy1 hy2
            have hy : y = any.g := by simpa using hy2
            obtain ⟨d, hd, hdg⟩ := List.mem_map.1 hy1
            have := (List.all_eq_true.1 hacc.2) d hd
            rw [hy] at hdg
            exact absurd hdg (by simpa using this)
          · rw [List.map_append]
            intro hmem
            rcases List.mem_append.1 hmem with h | h
            · exact hh.2 h
            · have : targetG = any.g := by simpa using h
              exact hacc.1 this.symm
        · rw [if_neg hacc] at heq
          exact ih (k + 1) ds ds2 k2 heq hlen
    · rw [backfill, if_neg h3] at heq
      simp only [Option.some_inj, Prod.mk.injEq] at heq
      obtain ⟨rfl, rfl⟩ := heq
      exact ⟨by omega, fun h => h⟩

theorem totalPool_g_nodup (s : GState) (target : Card)
    (h : (s.deck.map (fun c => c.g)).Nodup) :
    ((totalPoolOf s target).map (fun x => x.g)).Nodup ∧
    target.g ∉ (totalPoolOf s target).map (fun x => x.g) := by
  have hpool : ((poolOf s target).map (fun x => x.g)).Nodup := by
    unfold poolOf
    rw [List.map_map]
    exact List.Nodup.sublist ((List.filter_sublist _).map _) h
  have hpoolsub : ∀ y ∈ (poolOf s target).map (fun x => x.g),
      y ∈ s.deck.map (fun c => c.g) ∧ y ≠ target.g := by
    intro y hy
    unfold poolOf at hy
    rw [List.map_map] at hy
    obtain ⟨c, hc, rfl⟩ := List.mem_map.1 hy
    obtain ⟨hcd, hcp⟩ := List.mem_filter.1 hc
    simp only [decide_eq_true_eq] at hcp
    exact ⟨List.mem_map_of_mem _ hcd, hcp.1⟩
  have hextra : ((extraOf s target).map (fun x => x.g)).Nodup ∧
      ∀ y ∈ (extraOf s target).map (fun x => x.g),
        y ∉ s.deck.map (fun c => c.g) ∧ y ≠ target.g := by
    unfold extraOf
    split
    · constructor
      · exact List.Nodup.sublist ((List.filter_sublist _).map _)
          sounds_g_nodup
      · intro y hy
        obtain ⟨x, hx, rfl⟩ := List.mem_map.1 hy
        obtain ⟨hxc, hxp⟩ := List.mem_filter.1 hx
        simp only [decide_eq_true_eq, List.all_eq_true] at hxp
        constructor
        · intro hmem
          obtain ⟨c, hcd, hcg⟩ := List.mem_map.1 hmem
          have := hxp.2.2 c hcd
          simp only [decide_eq_true_eq] at this
          exact this hcg
        · exact hxp.1
    · simp
  constructor
  · unfold totalPoolOf
    rw [List.map_append]
    exact List.Nodup.append hpool hextra.1
      (fun y hy1 hy2 => (hextra.2 y hy2).1 (hpoolsub y hy1).1)
  · unfold totalPoolOf
    rw [List.map_append]
    intro hmem
    rcases List.mem_append.1 hmem with h1 | h1
    · exact (hpoolsub _ h1).2 rfl
    · exact (hextra.2 _ h1).2 rfl

theorem target_not_in_draws (s : GState) (target : Card) {t : List Sound}
    (hnd : (s.deck.map (fun c => c.g)).Nodup)
    (hmem : ∀ x ∈ t, x ∈ totalPoolOf s target) :
    target.g ∉ t.map (fun x => x.g) := by
  intro hmem2
  obtain ⟨x, hx, hxg⟩ := List.mem_map.1 hmem2
  exact (totalPool_g_nodup s target hnd).2
    (hxg ▸ List.mem_map_of_mem _ (hmem x hx))

theorem buildOptions_some_spec (rng : Nat → Nat) (fuel : Nat) (s : GState)
    (target : Card) (opts : List String)
    (heq : buildOptions rng fuel s target = some opts)
    (hnd : (s.deck.map (fun c => c.g)).Nodup) :
    opts.length = 4 ∧ opts.Nodup ∧ target.g ∈ opts := by
  obtain ⟨t, kf, hdd, hmem, hlen3, hfnd, hnf, hgimp⟩ :=
    drawDistractors_spec rng (totalPoolOf s target).length 0
      (totalPoolOf s target) [] [target.fam] (by simp) (by simp) (by simp)
  unfold buildOptions at heq
  rw [hdd] at heq
  dsimp only at heq
  rw [List.nil_append] at heq
  cases hbf : backfill rng target.g fuel kf t with
  | none => rw [hbf] at heq; exact absurd heq (by simp)
  | some dk2 =>
    obtain ⟨ds2, k2⟩ := dk2
    rw [hbf] at heq
    dsimp only at heq
    rw [Option.some_inj] at heq
    obtain ⟨hl2, himp⟩ := backfill_spec rng target.g fuel kf t ds2 k2 hbf
      (by simpa using hlen3)
    have htg : (t.map (fun x => x.g)).Nodup ∧
        target.g ∉ t.map (fun x => x.g) :=
      ⟨by simpa using hgimp (by simpa using (totalPool_g_nodup s target hnd).1),
       target_not_in_draws s target hnd hmem⟩
    obtain ⟨hnd2, hnm2⟩ := himp htg
    have hperm := fySteps_perm rng
      ((target.g :: ds2.map (fun d => d.g)).length - 1) k2
      (target.g :: ds2.map (fun d => d.g))
    rw [heq] at hperm
    refine ⟨?_, ?_, ?_⟩
    · rw [hperm.length_eq]
      simp [hl2]
    · exact hperm.symm.nodup (by rw [List.nodup_cons]; exact ⟨hnm2, hnd2⟩)
    · exact hperm.mem_iff.2 (List.mem_cons_self _ _)

theorem buildOptions_families (rng : Nat → Nat) (fuel : Nat) (s : GState)
    (target : Card)
    (hnd : (s.deck.map (fun c => c.g)).Nodup)
    (htgt : target ∈ s.deck)
    (hfam4 : 4 ≤ (s.deck.map (fun c => c.fam)).toFinset.card)
    (hcat : ∀ c ∈ s.deck, cardSound c ∈ SOUNDS_ORDERED) :
    ∃ opts, buildOptions rng fuel s target = some opts ∧
      opts.length = 4 ∧ opts.Nodup ∧ target.g ∈ opts ∧
      (opts.map famOf).Nodup := by
  have hinj := List.inj_on_of_nodup_map hnd
  have hsub : (s.deck.map (fun c => c.fam)).toFinset.erase target.fam ⊆
      famsAvail (totalPoolOf s target) [target.fam] := by
    intro y hy
    obtain ⟨hyne, hym⟩ := Finset.mem_erase.1 hy
    rw [List.mem_toFinset] at hym
    obtain ⟨c, hcd, hcf⟩ := List.mem_map.1 hym
    have hcfam : c.fam ≠ target.fam := by rw [hcf]; exact hyne
    have hcg : c.g ≠ target.g := by
      intro heq2
      exact hcfam (by rw [hinj hcd htgt heq2])
    simp only [famsAvail, List.mem_toFinset, List.mem_map, List.mem_filter,
      decide_eq_true_eq]
    refine ⟨cardSound c, ⟨?_, ?_⟩, hcf⟩
    · unfold totalPoolOf
      apply List.mem_append_left
      unfold poolOf
      exact List.mem_map_of_mem _
        (List.mem_filter.2 ⟨hcd, by simp [hcg, hcfam]⟩)
    · intro hmem
      exact hcfam (by simpa using hmem)
  have hcard3 : 3 ≤ (famsAvail (totalPoolOf s target) [target.fam]).card := by
    have h1 := Finset.card_le_card hsub
    have h2 : target.fam ∈ (s.deck.map (fun c => c.fam)).toFinset :=
      List.mem_toFinset.2 (List.mem_map_of_mem _ htgt)
    rw [Finset.card_erase_of_mem h2] at h1
    omega
  have hcomplete := drawDistractors_complete rng
    (totalPoolOf s target).length 0 (totalPoolOf s target) [] [target.fam]
    le_rfl (by simp) (by simpa using hcard3)
  obtain ⟨t, kf, hdd, hmem, hlen3, hfnd, hnf, hgimp⟩ :=
    drawDistractors_spec rng (totalPoolOf s target).length 0
      (totalPoolOf s target) [] [target.fam] (by simp) (by simp) (by simp)
  rw [hdd] at hcomplete
  have htlen : t.length = 3 := by simpa using hcomplete
  have hbf := backfill_exit rng target.g fuel kf t (by omega)
  have hbo : buildOptions rng fuel s target =
      some (fySteps rng kf (target.g :: t.map (fun d => d.g))
        ((target.g :: t.map (fun d => d.g)).length - 1)) := by
    unfold buildOptions
    rw [hdd]
    dsimp only
    rw [List.nil_append, hbf]
  have htg : (t.map (fun x => x.g)).Nodup ∧
      target.g ∉ t.map (fun x => x.g) :=
    ⟨by simpa using hgimp (by simpa using (totalPool_g_nodup s target hnd).1),
     target_not_in_draws s target hnd hmem⟩
  have hperm := fySteps_perm rng
    ((target.g :: t.map (fun d => d.g)).length - 1) kf
    (target.g :: t.map (fun d => d.g))
  have hmapeq : (target.g :: t.map (fun d => d.g)).map famOf =
      target.fam :: t.map (fun x => x.fam) := by
    simp only [List.map_cons, List.map_map]
    have h1 : famOf target.g = target.fam := by
      have := famOf_catalog (cardSound target) (hcat target htgt)
      simpa using this
    rw [h1]
    congr 1
    apply List.map_congr_left
    intro x hx
    have hxp := hmem x hx
    unfold totalPoolOf at hxp
    rcases List.mem_append.1 hxp with h | h
    · unfold poolOf at h
      obtain ⟨c, hc, rfl⟩ := List.mem_map.1 h
      have := famOf_catalog (cardSound c) (hcat c (List.mem_filter.1 hc).1)
      simpa using this
    · unfold extraOf at h
      by_cases hc3 : (poolOf s target).length < 3
      · rw [if_pos hc3] at h
        exact famOf_catalog x (List.mem_filter.1 h).1
      · rw [if_neg hc3] at h
        exact absurd h (List.not_mem_nil x)
  refine ⟨_, hbo, ?_, ?_, ?_, ?_⟩
  · rw [hperm.length_eq]
    simp [htlen]
  · exact hperm.symm.nodup (by rw [List.nodup_cons]; exact ⟨htg.2, htg.1⟩)
  · exact hperm.mem_iff.2 (List.mem_cons_self _ _)
  · refine (hperm.map famOf).symm.nodup ?_
    rw [hmapeq, List.nodup_cons]
    constructor
    · intro hmem2
      obtain ⟨x, hx, hxf⟩ := List.mem_map.1 hmem2
      exact hnf x hx (by rw [hxf]; exact List.mem_singleton_self _)
    · simpa using hfnd

/-- Claim C6: every sequence `buildOptions` returns consists of exactly 4
pairwise-distinct symbols, one of which is the target's (given the
store's symbols are pairwise distinct, as the catalog-prefix store
guarantees); and when the active store spans at least 4 distinct
families, the draw loop always finds 3 family-distinct distractors, the
builder succeeds for every random stream and fuel, and no two returned
symbols share a catalog family. -/
theorem buildOptions_guarantees :
    (∀ (rng : Nat → Nat) (fuel : Nat) (s : GState) (target : Card)
        (opts : List String),
      buildOptions rng fuel s target = some opts →
      (s.deck.map (fun c => c.g)).Nodup →
      opts.length = 4 ∧ opts.Nodup ∧ target.g ∈ opts) ∧
    (∀ (rng : Nat → Nat) (fuel : Nat) (s : GState) (target : Card),
      (s.deck.map (fun c => c.g)).Nodup →
      target ∈ s.deck →
      4 ≤ (s.deck.map (fun c => c.fam)).toFinset.card →
      (∀ c ∈ s.deck, cardSound c ∈ SOUNDS_ORDERED) →
      ∃ opts, buildOptions rng fuel s target = some opts ∧
        opts.length = 4 ∧ opts.Nodup ∧ target.g ∈ opts ∧
        (opts.map famOf).Nodup) :=
  ⟨fun rng fuel s target opts heq hnd =>
     buildOptions_some_spec rng fuel s target opts heq hnd,
   fun rng fuel s target hnd htgt hfam4 hcat =>
     buildOptions_families rng fuel s target hnd htgt hfam4 hcat⟩

def wState6 : GState :=
  ⟨4, 0, (SOUNDS_ORDERED.take 4).map makeCard, 0, none, 0, 0, 0, 0, 0⟩

def wCard6 : Card := makeCard ⟨"ch", "ch"⟩

theorem buildOptions_guarantees_witness :
    (wState6.deck.map (fun c => c.g)).Nodup ∧
    wCard6 ∈ wState6.deck ∧
    4 ≤ (wState6.deck.map (fun c => c.fam)).toFinset.card ∧
    (∀ c ∈ wState6.deck, cardSound c ∈ SOUNDS_ORDERED) ∧
    (∃ opts, buildOptions (fun _ => 0) 0 wState6 wCard6 = some opts ∧
      opts.length = 4 ∧ opts.Nodup ∧ wCard6.g ∈ opts ∧
      (opts.map famOf).Nodup) :=
  ⟨by decide, by decide, by decide, by decide,
   buildOptions_guarantees.2 (fun _ => 0) 0 wState6 wCard6
     (by decide) (by decide) (by decide) (by decide)⟩

end MagicalSounds
